import Mathlib

/-!
Shallow embedding of the feature-tensor identity core of
`catboost/cuda/data/feature.h` (namespace `NCatboostCuda`): `TBinarySplit`,
`TFeatureTensor` and `TCtr`, together with their canonicalization
(`Sort` + `Unique`), equality, ordering, hashing and subset operations.

Modelling conventions:
* `ui32`/`ui64` values are modelled as `Nat`.  The code performs no
  arithmetic on them (only comparison, copying and hashing), so no overflow
  behaviour has to be modelled.
* `TVector<T>` is modelled as `List T`; `push_back` is appending.
* `Sort` (`std::sort` with `operator<`) followed by `Unique` (`std::unique`
  + `resize`, removing adjacent equal elements) is modelled by
  `sortUnique = uniqueConsec ∘ insertionSort (· ≤ ·)`.  Since `operator<`
  is a strict total order on the element types, the sorted result of
  `std::sort` is the unique `≤`-sorted permutation of the input, which is
  exactly what `insertionSort (· ≤ ·)` produces; `uniqueConsec` removes
  adjacent duplicates exactly as `std::unique` does.
-/

namespace NCatboostCuda

/-- `enum class EBinSplitType { TakeBin, TakeGreater }` from feature.h. -/
inductive EBinSplitType
  | TakeBin
  | TakeGreater
deriving DecidableEq, Repr

/-- The underlying integer value of the enum, in declaration order
(`TakeBin = 0`, `TakeGreater = 1`), which is what C++ comparison and
hashing of the enum operate on. -/
def EBinSplitType.toNat : EBinSplitType → Nat
  | .TakeBin => 0
  | .TakeGreater => 1

/-- `struct TBinarySplit` from feature.h: fields in declaration order
`FeatureId`, `BinIdx`, `SplitType`. -/
structure TBinarySplit where
  FeatureId : Nat
  BinIdx : Nat
  SplitType : EBinSplitType
deriving DecidableEq, Repr

namespace TBinarySplit

/-- The three-argument constructor `TBinarySplit(featureId, binIdx, splitType)`. -/
def mk3 (featureId binIdx : Nat) (splitType : EBinSplitType) : TBinarySplit :=
  ⟨featureId, binIdx, splitType⟩

/-- The default constructor `TBinarySplit() = default`.  The member
initializers set `FeatureId = 0` and `BinIdx = 0`, but `SplitType` has no
initializer, so for a default-constructed object it is indeterminate; the
`indeterminate` parameter models whatever value the uninitialized member
happens to hold. -/
def defaultCtor (indeterminate : EBinSplitType) : TBinarySplit :=
  ⟨0, 0, indeterminate⟩

/-- `operator<`: `std::tie(FeatureId, BinIdx, SplitType) <
std::tie(other.FeatureId, other.BinIdx, other.SplitType)`, i.e. the
lexicographic comparison of the three fields in declaration order. -/
def ltb (a b : TBinarySplit) : Bool :=
  if a.FeatureId < b.FeatureId then true
  else if b.FeatureId < a.FeatureId then false
  else if a.BinIdx < b.BinIdx then true
  else if b.BinIdx < a.BinIdx then false
  else a.SplitType.toNat < b.SplitType.toNat

/-- `operator==`: all three fields equal (via `std::tie`). -/
def beq (a b : TBinarySplit) : Bool :=
  a.FeatureId == b.FeatureId && (a.BinIdx == b.BinIdx && (a.SplitType == b.SplitType))

/-- `operator!=`: `!(*this == other)`. -/
def neq (a b : TBinarySplit) : Bool := !(a.beq b)

end TBinarySplit

/-- The encoding of a split as a lexicographic triple of its fields in
declaration order; used to transfer the linear order of lexicographic
triples to `TBinarySplit`, matching `operator<` (see
`split_ltb_iff_lt`). -/
def TBinarySplit.encode (s : TBinarySplit) : Nat ×ₗ (Nat ×ₗ Nat) :=
  toLex (s.FeatureId, toLex (s.BinIdx, s.SplitType.toNat))

theorem EBinSplitType.toNat_injective : Function.Injective EBinSplitType.toNat := by
  intro a b h
  cases a <;> cases b <;> simp_all [EBinSplitType.toNat]

theorem split_encode_injective : Function.Injective TBinarySplit.encode := by
  intro a b h
  unfold TBinarySplit.encode at h
  have h' := toLex.injective h
  have h1 : a.FeatureId = b.FeatureId := congrArg Prod.fst h'
  have h2 := toLex.injective (congrArg Prod.snd h')
  have h3 : a.BinIdx = b.BinIdx := congrArg Prod.fst h2
  have h4 : a.SplitType = b.SplitType :=
    EBinSplitType.toNat_injective (congrArg Prod.snd h2)
  cases a; cases b
  simp_all

instance : LinearOrder TBinarySplit :=
  LinearOrder.lift' TBinarySplit.encode split_encode_injective

/-- Modelled from the spec: `MultiHash` (from `util/digest/multi.h`, not
under src) is "a combined hash over the ... fields that is consistent with
`equals`", combining the hash of each argument in fixed order.  Modelled as
the Cantor pairing function, a deterministic order-sensitive combiner.
Two-argument form. -/
def MultiHash2 (a b : Nat) : Nat := Nat.pair a b

/-- Modelled from the spec: three-argument `MultiHash`, see `MultiHash2`. -/
def MultiHash3 (a b c : Nat) : Nat := Nat.pair a (Nat.pair b c)

/-- `TBinarySplit::GetHash`: `MultiHash(FeatureId, BinIdx, SplitType)`. -/
def TBinarySplit.GetHash (s : TBinarySplit) : Nat :=
  MultiHash3 s.FeatureId s.BinIdx s.SplitType.toNat

/-- Modelled from the spec: `TVecHash<TBinarySplit>` (from
`catboost/libs/model/hash.h`, not under src) is an order-sensitive hash of a
sequence of splits built from each element's `GetHash`. -/
def TVecHash (l : List TBinarySplit) : Nat :=
  l.foldl (fun h s => Nat.pair h s.GetHash) 0

/-- Modelled from the spec: `VecCityHash` (from `catboost/libs/model/hash.h`,
not under src) is an order-sensitive hash of a sequence of `ui32`. -/
def VecCityHash (l : List Nat) : Nat :=
  l.foldl (fun h x => Nat.pair h x) 0

/-- `template <class TVectorType> inline void Unique(TVectorType& vector)`:
`std::unique` keeps one representative of each run of adjacent equal
elements and `resize` drops the tail; modelled as a pure function removing
adjacent duplicates.  (Within a run all elements are equal, so which
representative is kept does not affect the resulting list.) -/
def uniqueConsec {α : Type _} [DecidableEq α] : List α → List α
  | [] => []
  | [a] => [a]
  | a :: b :: l => if a = b then uniqueConsec (b :: l) else a :: uniqueConsec (b :: l)

/-- `Sort` + `Unique` as used by `SortUniqueSplits` / `SortUniqueCatFeatures`:
sort ascending by the element order, then remove (now adjacent) duplicates. -/
def sortUnique {α : Type _} [LinearOrder α] (l : List α) : List α :=
  uniqueConsec (List.insertionSort (· ≤ ·) l)

/-- Modelled from the spec: `NCatboostCuda::IsSubset` over vectors comes
from `helpers.h`, which is not under src; the spec reads "every split and
every categorical feature in `self` also appears in `other`", so the vector
subset check is membership of every element of the first sequence in the
second. -/
def vecIsSubset {α : Type _} [DecidableEq α] (a b : List α) : Bool :=
  a.all fun x => b.contains x

/-- Lexicographic `operator<` of `std::vector` (`std::lexicographical_compare`
with the element `operator<` given as `ltb`). -/
def lexLtb {α : Type _} (ltb : α → α → Bool) : List α → List α → Bool
  | _, [] => false
  | [], _ :: _ => true
  | a :: as, b :: bs => if ltb a b then true else if ltb b a then false else lexLtb ltb as bs

/-- `struct TFeatureTensor` from feature.h: a vector of binary splits and a
vector of categorical feature ids. -/
structure TFeatureTensor where
  Splits : List TBinarySplit
  CatFeatures : List Nat
deriving DecidableEq, Repr

namespace TFeatureTensor

/-- The default-constructed tensor: both vectors empty. -/
def empty : TFeatureTensor := ⟨[], []⟩

/-- `GetSplits`. -/
def GetSplits (t : TFeatureTensor) : List TBinarySplit := t.Splits

/-- `GetCatFeatures`. -/
def GetCatFeatures (t : TFeatureTensor) : List Nat := t.CatFeatures

/-- `IsSimple`: `(Splits.size() + CatFeatures.size()) == 1`. -/
def IsSimple (t : TFeatureTensor) : Bool :=
  t.Splits.length + t.CatFeatures.length == 1

/-- `IsEmpty`: `CatFeatures.size() == 0 && Splits.size() == 0`. -/
def IsEmpty (t : TFeatureTensor) : Bool :=
  t.CatFeatures.length == 0 && t.Splits.length == 0

/-- `Size`: `CatFeatures.size() + Splits.size()`. -/
def Size (t : TFeatureTensor) : Nat :=
  t.CatFeatures.length + t.Splits.length

/-- `GetComplexity`: `CatFeatures.size() + std::min<ui64>(Splits.size(), 1)`. -/
def GetComplexity (t : TFeatureTensor) : Nat :=
  t.CatFeatures.length + min t.Splits.length 1

/-- `SortUniqueSplits`: `Sort(Splits); Unique(Splits)`. -/
def SortUniqueSplits (t : TFeatureTensor) : TFeatureTensor :=
  { t with Splits := sortUnique t.Splits }

/-- `SortUniqueCatFeatures`: `Sort(CatFeatures); Unique(CatFeatures)`. -/
def SortUniqueCatFeatures (t : TFeatureTensor) : TFeatureTensor :=
  { t with CatFeatures := sortUnique t.CatFeatures }

/-- `AddBinarySplit(const TBinarySplit&)`: push the split then
`SortUniqueSplits`. -/
def AddBinarySplit (t : TFeatureTensor) (bin : TBinarySplit) : TFeatureTensor :=
  SortUniqueSplits { t with Splits := t.Splits ++ [bin] }

/-- `AddBinarySplit(const TVector<TBinarySplit>&)`: push every split then
`SortUniqueSplits`. -/
def AddBinarySplitList (t : TFeatureTensor) (splits : List TBinarySplit) : TFeatureTensor :=
  SortUniqueSplits { t with Splits := t.Splits ++ splits }

/-- `AddCatFeature(ui32)`: push the id then `SortUniqueCatFeatures`. -/
def AddCatFeature (t : TFeatureTensor) (featureId : Nat) : TFeatureTensor :=
  SortUniqueCatFeatures { t with CatFeatures := t.CatFeatures ++ [featureId] }

/-- `AddCatFeature(const TVector<ui32>&)`: push every id then
`SortUniqueCatFeatures`. -/
def AddCatFeatureList (t : TFeatureTensor) (featureIds : List Nat) : TFeatureTensor :=
  SortUniqueCatFeatures { t with CatFeatures := t.CatFeatures ++ featureIds }

/-- `AddTensor`: push the other tensor's splits and cat features, then
`SortUniqueSplits` and `SortUniqueCatFeatures`. -/
def AddTensor (t other : TFeatureTensor) : TFeatureTensor :=
  SortUniqueCatFeatures (SortUniqueSplits
    ⟨t.Splits ++ other.Splits, t.CatFeatures ++ other.CatFeatures⟩)

/-- `operator==`: `Splits == other.GetSplits() && CatFeatures == other.GetCatFeatures()`. -/
def beq (a b : TFeatureTensor) : Bool :=
  a.Splits == b.GetSplits && a.CatFeatures == b.GetCatFeatures

/-- `operator!=`: `!(*this == other)`. -/
def neq (a b : TFeatureTensor) : Bool := !(a.beq b)

/-- `GetHash`: `MultiHash(TVecHash<TBinarySplit>()(Splits), VecCityHash(CatFeatures))`. -/
def GetHash (t : TFeatureTensor) : Nat :=
  MultiHash2 (TVecHash t.Splits) (VecCityHash t.CatFeatures)

/-- `operator<`: `std::tie(Splits, CatFeatures) < std::tie(other.Splits,
other.CatFeatures)` — lexicographic over the two vectors, each vector
compared by its own lexicographic `operator<`. -/
def ltb (a b : TFeatureTensor) : Bool :=
  if lexLtb TBinarySplit.ltb a.Splits b.Splits then true
  else if lexLtb TBinarySplit.ltb b.Splits a.Splits then false
  else lexLtb (fun x y : Nat => decide (x < y)) a.CatFeatures b.CatFeatures

/-- `IsSubset(const TFeatureTensor other)`: `IsSubset(Splits, other.Splits)
&& IsSubset(CatFeatures, other.CatFeatures)`. -/
def IsSubset (t other : TFeatureTensor) : Bool :=
  vecIsSubset t.Splits other.Splits && vecIsSubset t.CatFeatures other.CatFeatures

end TFeatureTensor

/-- Modelled from the spec: `TCtrConfig` (from `catboost/cuda/ctrs/ctr.h`,
not under src) is an "opaque comparable/hashable/orderable value" that is
"compared/hashed as a unit"; modelled as a wrapper around a `Nat` with its
order, equality and hash given by that value. -/
structure TCtrConfig where
  val : Nat
deriving DecidableEq, Repr

/-- Modelled from the spec: the opaque configuration's hash (used via
`THash<TCtrConfig>`, which calls `config.GetHash()`). -/
def TCtrConfig.GetHash (c : TCtrConfig) : Nat := c.val

/-- Modelled from the spec: the opaque configuration's `operator<`. -/
def TCtrConfig.ltb (a b : TCtrConfig) : Bool := a.val < b.val

/-- `struct TCtr` from feature.h: a feature tensor plus a CTR configuration,
fields in declaration order `FeatureTensor`, `Configuration`. -/
structure TCtr where
  FeatureTensor : TFeatureTensor
  Configuration : TCtrConfig
deriving DecidableEq, Repr

namespace TCtr

/-- `operator==`: `std::tie(FeatureTensor, Configuration) == ...`. -/
def beq (a b : TCtr) : Bool :=
  a.FeatureTensor.beq b.FeatureTensor && a.Configuration == b.Configuration

/-- `operator!=`: `!(*this == other)`. -/
def neq (a b : TCtr) : Bool := !(a.beq b)

/-- `GetHash`: `MultiHash(FeatureTensor, Configuration)` — `MultiHash`
hashes each argument through its `THash` specialization, which calls the
respective `GetHash`. -/
def GetHash (c : TCtr) : Nat :=
  MultiHash2 c.FeatureTensor.GetHash c.Configuration.GetHash

/-- `IsSimple`: `FeatureTensor.IsSimple()`. -/
def IsSimple (c : TCtr) : Bool := c.FeatureTensor.IsSimple

/-- `operator<`: `std::tie(FeatureTensor, Configuration) < ...` —
lexicographic over the two fields. -/
def ltb (a b : TCtr) : Bool :=
  if a.FeatureTensor.ltb b.FeatureTensor then true
  else if b.FeatureTensor.ltb a.FeatureTensor then false
  else a.Configuration.ltb b.Configuration

end TCtr

/-! ### Properties of `uniqueConsec` and `sortUnique` -/

section SortUniqueLemmas

variable {α : Type _}

theorem mem_uniqueConsec [DecidableEq α] : ∀ (l : List α) (x : α), x ∈ uniqueConsec l ↔ x ∈ l
  | [], _ => Iff.rfl
  | [_], _ => Iff.rfl
  | a :: b :: l, x => by
    by_cases hab : a = b
    · subst hab
      rw [uniqueConsec, if_pos rfl]
      rw [mem_uniqueConsec (a :: l) x]
      simp
    · rw [uniqueConsec, if_neg hab]
      simp [mem_uniqueConsec (b :: l) x]

theorem head?_uniqueConsec [DecidableEq α] : ∀ l : List α, (uniqueConsec l).head? = l.head?
  | [] => rfl
  | [_] => rfl
  | a :: b :: l => by
    by_cases hab : a = b
    · subst hab
      rw [uniqueConsec, if_pos rfl, head?_uniqueConsec (a :: l)]
      rfl
    · rw [uniqueConsec, if_neg hab]
      rfl

theorem chain'_lt_uniqueConsec [LinearOrder α] :
    ∀ l : List α, List.Chain' (· ≤ ·) l → List.Chain' (· < ·) (uniqueConsec l)
  | [], _ => List.chain'_nil
  | [a], _ => List.chain'_singleton a
  | a :: b :: l, h => by
    obtain ⟨hab, h'⟩ := List.chain'_cons.mp h
    by_cases heq : a = b
    · subst heq
      rw [uniqueConsec, if_pos rfl]
      exact chain'_lt_uniqueConsec (a :: l) h'
    · rw [uniqueConsec, if_neg heq]
      refine List.chain'_cons'.mpr ⟨?_, chain'_lt_uniqueConsec (b :: l) h'⟩
      intro y hy
      rw [head?_uniqueConsec] at hy
      simp only [List.head?_cons, Option.mem_def, Option.some.injEq] at hy
      subst hy
      exact lt_of_le_of_ne hab heq

theorem chain'_lt_sortUnique [LinearOrder α] (l : List α) :
    List.Chain' (· < ·) (sortUnique l) :=
  chain'_lt_uniqueConsec _ (List.Pairwise.chain' (List.sorted_insertionSort _ l))

theorem mem_sortUnique [LinearOrder α] (l : List α) (x : α) :
    x ∈ sortUnique l ↔ x ∈ l := by
  rw [sortUnique, mem_uniqueConsec]
  exact (List.perm_insertionSort _ l).mem_iff

theorem nodup_of_chain'_lt [LinearOrder α] {l : List α}
    (h : List.Chain' (· < ·) l) : l.Nodup :=
  (List.chain'_iff_pairwise.mp h).imp ne_of_lt

/-- Two strictly-sorted lists with the same members are equal; strict
sortedness makes the canonical form unique. -/
theorem chain'_lt_eq_of_mem_iff [LinearOrder α] {l₁ l₂ : List α}
    (h₁ : List.Chain' (· < ·) l₁) (h₂ : List.Chain' (· < ·) l₂)
    (hm : ∀ x, x ∈ l₁ ↔ x ∈ l₂) : l₁ = l₂ := by
  have hp : l₁.Perm l₂ :=
    (List.perm_ext_iff_of_nodup (nodup_of_chain'_lt h₁) (nodup_of_chain'_lt h₂)).mpr hm
  exact List.eq_of_perm_of_sorted hp
    ((List.chain'_iff_pairwise.mp h₁).imp le_of_lt)
    ((List.chain'_iff_pairwise.mp h₂).imp le_of_lt)

theorem sortUnique_congr [LinearOrder α] {l₁ l₂ : List α}
    (hm : ∀ x, x ∈ l₁ ↔ x ∈ l₂) : sortUnique l₁ = sortUnique l₂ :=
  chain'_lt_eq_of_mem_iff (chain'_lt_sortUnique l₁) (chain'_lt_sortUnique l₂)
    (fun x => (mem_sortUnique l₁ x).trans ((hm x).trans (mem_sortUnique l₂ x).symm))

theorem sortUnique_eq_self [LinearOrder α] {l : List α}
    (h : List.Chain' (· < ·) l) : sortUnique l = l :=
  chain'_lt_eq_of_mem_iff (chain'_lt_sortUnique l) h (mem_sortUnique l)

theorem sortUnique_sortUnique_append [LinearOrder α] (l l' : List α) :
    sortUnique (sortUnique l ++ l') = sortUnique (l ++ l') :=
  sortUnique_congr fun x => by
    simp only [List.mem_append, mem_sortUnique]

theorem sortUnique_append_sortUnique [LinearOrder α] (l l' : List α) :
    sortUnique (l ++ sortUnique l') = sortUnique (l ++ l') :=
  sortUnique_congr fun _x => by
    simp only [List.mem_append, mem_sortUnique]

theorem sortUnique_perm_congr [LinearOrder α] {l₁ l₂ : List α}
    (h : l₁.Perm l₂) : sortUnique l₁ = sortUnique l₂ :=
  sortUnique_congr fun _x => h.mem_iff

theorem length_le_length_sortUnique_append [LinearOrder α] {l : List α}
    (h : List.Chain' (· < ·) l) (l' : List α) :
    l.length ≤ (sortUnique (l ++ l')).length := by
  have hsub : l ⊆ sortUnique (l ++ l') := fun x hx =>
    (mem_sortUnique _ x).mpr (List.mem_append_left _ hx)
  exact ((nodup_of_chain'_lt h).subperm hsub).length_le

end SortUniqueLemmas

/-! ### The Boolean comparison operators versus the mathematical orders -/

theorem split_lt_iff (a b : TBinarySplit) :
    a < b ↔ a.FeatureId < b.FeatureId ∨ (a.FeatureId = b.FeatureId ∧
      (a.BinIdx < b.BinIdx ∨ (a.BinIdx = b.BinIdx ∧
        a.SplitType.toNat < b.SplitType.toNat))) := by
  show TBinarySplit.encode a < TBinarySplit.encode b ↔ _
  rw [TBinarySplit.encode, TBinarySplit.encode, Prod.Lex.lt_iff, Prod.Lex.lt_iff]

theorem split_ltb_iff_lt (a b : TBinarySplit) : a.ltb b = true ↔ a < b := by
  rw [split_lt_iff, TBinarySplit.ltb]
  split_ifs with h1 h2 h3 h4 <;>
    simp only [true_iff, Bool.false_eq_true, false_iff, decide_eq_true_eq] <;>
    omega

theorem split_beq_iff (a b : TBinarySplit) : a.beq b = true ↔ a = b := by
  cases a; cases b
  simp [TBinarySplit.beq, TBinarySplit.mk.injEq, and_assoc]

theorem chain'_ltb_iff (l : List TBinarySplit) :
    List.Chain' (fun a b => TBinarySplit.ltb a b = true) l ↔ List.Chain' (· < ·) l :=
  ⟨fun h => h.imp fun a b hx => (split_ltb_iff_lt a b).mp hx,
   fun h => h.imp fun a b hx => (split_ltb_iff_lt a b).mpr hx⟩

theorem lexLtb_iff {α : Type _} [LinearOrder α] (ltb : α → α → Bool)
    (h : ∀ x y, ltb x y = true ↔ x < y) :
    ∀ l₁ l₂ : List α, lexLtb ltb l₁ l₂ = true ↔ List.Lex (· < ·) l₁ l₂
  | l, [] => by
    have hf : lexLtb ltb l [] = false := by cases l <;> rfl
    rw [hf]
    simp only [Bool.false_eq_true, false_iff]
    exact fun hlex => List.Lex.not_nil_right _ _ hlex
  | [], b :: bs => by
    have ht : lexLtb ltb [] (b :: bs) = true := rfl
    rw [ht]
    simp only [true_iff]
    exact List.Lex.nil
  | a :: as, b :: bs => by
    rw [lexLtb]
    by_cases hab : ltb a b = true
    · rw [if_pos hab]
      simp only [true_iff]
      exact List.Lex.rel ((h a b).mp hab)
    · rw [if_neg hab]
      by_cases hba : ltb b a = true
      · rw [if_pos hba]
        simp only [Bool.false_eq_true, false_iff]
        intro hlex
        cases hlex with
        | rel hr => exact absurd ((h b a).mp hba) (asymm hr)
        | cons ht => exact absurd ((h a a).mp hba) (lt_irrefl a)
      · rw [if_neg hba]
        have hle₁ : ¬ a < b := fun hh => hab ((h a b).mpr hh)
        have hle₂ : ¬ b < a := fun hh => hba ((h b a).mpr hh)
        have heq : a = b := le_antisymm (not_lt.mp hle₂) (not_lt.mp hle₁)
        subst heq
        rw [List.Lex.cons_iff]
        exact lexLtb_iff ltb h as bs

/-- The encoding of a tensor as the lexicographic pair of its two vectors,
matching `operator<` via `std::tie` (see `tensor_ltb_iff_lt`). -/
def TFeatureTensor.encode (t : TFeatureTensor) : List TBinarySplit ×ₗ List Nat :=
  toLex (t.Splits, t.CatFeatures)

theorem tensor_encode_injective : Function.Injective TFeatureTensor.encode := by
  intro a b h
  have h' := toLex.injective h
  cases a; cases b
  simpa [TFeatureTensor.encode, TFeatureTensor.mk.injEq, Prod.ext_iff] using h'

instance : LinearOrder TFeatureTensor :=
  LinearOrder.lift' TFeatureTensor.encode tensor_encode_injective

theorem list_lt_iff_lex {α : Type _} [LinearOrder α] (l₁ l₂ : List α) :
    l₁ < l₂ ↔ List.Lex (· < ·) l₁ l₂ := Iff.rfl

theorem tensor_lt_iff (a b : TFeatureTensor) :
    a < b ↔ List.Lex (· < ·) a.Splits b.Splits ∨
      (a.Splits = b.Splits ∧ List.Lex (· < ·) a.CatFeatures b.CatFeatures) := by
  show TFeatureTensor.encode a < TFeatureTensor.encode b ↔ _
  rw [TFeatureTensor.encode, TFeatureTensor.encode, Prod.Lex.lt_iff]
  exact Iff.rfl

theorem tensor_ltb_iff_lt (a b : TFeatureTensor) : a.ltb b = true ↔ a < b := by
  have hs := lexLtb_iff TBinarySplit.ltb split_ltb_iff_lt
  have hn := lexLtb_iff (fun x y : Nat => decide (x < y)) (fun x y => by simp)
  rw [tensor_lt_iff, TFeatureTensor.ltb]
  split_ifs with h₁ h₂
  · simp only [true_iff]
    exact Or.inl ((hs _ _).mp h₁)
  · simp only [Bool.false_eq_true, false_iff]
    rintro (hlex | ⟨heq, _⟩)
    · exact h₁ ((hs _ _).mpr hlex)
    · have hba := (hs _ _).mp h₂
      rw [heq] at hba
      exact lt_irrefl _ ((list_lt_iff_lex _ _).mpr hba)
  · have hne₁ : ¬ List.Lex (· < ·) a.Splits b.Splits := fun hh => h₁ ((hs _ _).mpr hh)
    have hne₂ : ¬ List.Lex (· < ·) b.Splits a.Splits := fun hh => h₂ ((hs _ _).mpr hh)
    have heq : a.Splits = b.Splits :=
      le_antisymm (not_lt.mp fun hh => hne₂ ((list_lt_iff_lex _ _).mp hh))
        (not_lt.mp fun hh => hne₁ ((list_lt_iff_lex _ _).mp hh))
    rw [hn]
    constructor
    · exact fun hc => Or.inr ⟨heq, hc⟩
    · rintro (hlex | ⟨_, hc⟩)
      · exact absurd hlex hne₁
      · exact hc

theorem tensor_beq_iff (a b : TFeatureTensor) : a.beq b = true ↔ a = b := by
  cases a; cases b
  simp [TFeatureTensor.beq, TFeatureTensor.GetSplits, TFeatureTensor.GetCatFeatures,
    TFeatureTensor.mk.injEq]

instance : LinearOrder TCtrConfig :=
  LinearOrder.lift' TCtrConfig.val fun a b h => by cases a; cases b; simpa using h

theorem config_ltb_iff_lt (a b : TCtrConfig) : a.ltb b = true ↔ a < b := by
  show (decide (a.val < b.val)) = true ↔ a.val < b.val
  simp

/-- The encoding of a ctr as the lexicographic pair of its two fields,
matching `operator<` via `std::tie` (see `ctr_ltb_iff_lt`). -/
def TCtr.encode (c : TCtr) : TFeatureTensor ×ₗ TCtrConfig :=
  toLex (c.FeatureTensor, c.Configuration)

theorem ctr_encode_injective : Function.Injective TCtr.encode := by
  intro a b h
  have h' := toLex.injective h
  cases a; cases b
  simpa [TCtr.encode, TCtr.mk.injEq, Prod.ext_iff] using h'

instance : LinearOrder TCtr :=
  LinearOrder.lift' TCtr.encode ctr_encode_injective

theorem ctr_lt_iff (a b : TCtr) :
    a < b ↔ a.FeatureTensor < b.FeatureTensor ∨
      (a.FeatureTensor = b.FeatureTensor ∧ a.Configuration < b.Configuration) := by
  show TCtr.encode a < TCtr.encode b ↔ _
  rw [TCtr.encode, TCtr.encode, Prod.Lex.lt_iff]

theorem ctr_ltb_iff_lt (a b : TCtr) : a.ltb b = true ↔ a < b := by
  rw [ctr_lt_iff, TCtr.ltb]
  split_ifs with h₁ h₂
  · simp only [true_iff]
    exact Or.inl ((tensor_ltb_iff_lt _ _).mp h₁)
  · simp only [Bool.false_eq_true, false_iff]
    rintro (hlt | ⟨heq, _⟩)
    · exact h₁ ((tensor_ltb_iff_lt _ _).mpr hlt)
    · have hba := (tensor_ltb_iff_lt _ _).mp h₂
      rw [heq] at hba
      exact lt_irrefl _ hba
  · have hne₁ : ¬ a.FeatureTensor < b.FeatureTensor :=
      fun hh => h₁ ((tensor_ltb_iff_lt _ _).mpr hh)
    have hne₂ : ¬ b.FeatureTensor < a.FeatureTensor :=
      fun hh => h₂ ((tensor_ltb_iff_lt _ _).mpr hh)
    have heq : a.FeatureTensor = b.FeatureTensor :=
      le_antisymm (not_lt.mp hne₂) (not_lt.mp hne₁)
    rw [config_ltb_iff_lt]
    constructor
    · exact fun hc => Or.inr ⟨heq, hc⟩
    · rintro (hlt | ⟨_, hc⟩)
      · exact absurd hlt hne₁
      · exact hc

theorem ctr_beq_iff (a b : TCtr) : a.beq b = true ↔ a = b := by
  cases a; cases b
  simp [TCtr.beq, TCtr.mk.injEq, tensor_beq_iff]

/-! ### Componentwise descriptions of the mutating operations -/

theorem TFeatureTensor.addBinarySplit_def (t : TFeatureTensor) (bin : TBinarySplit) :
    t.AddBinarySplit bin = ⟨sortUnique (t.Splits ++ [bin]), t.CatFeatures⟩ := rfl

theorem TFeatureTensor.addBinarySplitList_def (t : TFeatureTensor) (l : List TBinarySplit) :
    t.AddBinarySplitList l = ⟨sortUnique (t.Splits ++ l), t.CatFeatures⟩ := rfl

theorem TFeatureTensor.addCatFeature_def (t : TFeatureTensor) (c : Nat) :
    t.AddCatFeature c = ⟨t.Splits, sortUnique (t.CatFeatures ++ [c])⟩ := rfl

theorem TFeatureTensor.addCatFeatureList_def (t : TFeatureTensor) (l : List Nat) :
    t.AddCatFeatureList l = ⟨t.Splits, sortUnique (t.CatFeatures ++ l)⟩ := rfl

theorem TFeatureTensor.addTensor_def (t u : TFeatureTensor) :
    t.AddTensor u =
      ⟨sortUnique (t.Splits ++ u.Splits), sortUnique (t.CatFeatures ++ u.CatFeatures)⟩ := rfl

/-! ### Canonical form and reachability -/

/-- The canonical-form invariant of the spec: `Splits` strictly ascending in
the `TBinarySplit` order defined by `operator<` (hence duplicate-free) and
`CatFeatures` strictly ascending (hence duplicate-free). -/
def Canonical (t : TFeatureTensor) : Prop :=
  List.Chain' (fun a b => TBinarySplit.ltb a b = true) t.Splits ∧
    List.Chain' (fun a b : Nat => a < b) t.CatFeatures

/-- A kernel-reducible decision procedure for `List.Chain'`. -/
def decChain' {α : Type _} (R : α → α → Prop) [DecidableRel R] :
    (l : List α) → Decidable (List.Chain' R l)
  | [] => isTrue List.chain'_nil
  | [a] => isTrue (List.chain'_singleton a)
  | a :: b :: l =>
    haveI := decChain' R (b :: l)
    decidable_of_iff (R a b ∧ List.Chain' R (b :: l)) List.chain'_cons.symm

instance (t : TFeatureTensor) : Decidable (Canonical t) :=
  haveI h₁ := decChain' (fun a b => TBinarySplit.ltb a b = true) t.Splits
  haveI h₂ := decChain' (fun a b : Nat => a < b) t.CatFeatures
  inferInstanceAs (Decidable
    (List.Chain' (fun a b => TBinarySplit.ltb a b = true) t.Splits ∧
      List.Chain' (fun a b : Nat => a < b) t.CatFeatures))

/-- The tensors reachable from the default-constructed (empty) tensor
through the public mutating operations. -/
inductive Reachable : TFeatureTensor → Prop
  | empty : Reachable TFeatureTensor.empty
  | addBin {t : TFeatureTensor} (s : TBinarySplit) :
      Reachable t → Reachable (t.AddBinarySplit s)
  | addBinList {t : TFeatureTensor} (l : List TBinarySplit) :
      Reachable t → Reachable (t.AddBinarySplitList l)
  | addCat {t : TFeatureTensor} (c : Nat) :
      Reachable t → Reachable (t.AddCatFeature c)
  | addCatList {t : TFeatureTensor} (l : List Nat) :
      Reachable t → Reachable (t.AddCatFeatureList l)
  | addTensor {t : TFeatureTensor} (u : TFeatureTensor) :
      Reachable t → Reachable (t.AddTensor u)

theorem canonical_iff_chain'_lt (t : TFeatureTensor) :
    Canonical t ↔
      List.Chain' (· < ·) t.Splits ∧ List.Chain' (· < ·) t.CatFeatures := by
  unfold Canonical
  rw [chain'_ltb_iff]

theorem canonical_of_sortUnique (s : List TBinarySplit) (c : List Nat) :
    Canonical ⟨sortUnique s, sortUnique c⟩ := by
  rw [canonical_iff_chain'_lt]
  exact ⟨chain'_lt_sortUnique s, chain'_lt_sortUnique c⟩

/-! ### Sequences of element additions -/

/-- A single element addition: either a binary split (`AddBinarySplit`) or a
categorical feature id (`AddCatFeature`). -/
inductive AddOp
  | bin (s : TBinarySplit)
  | cat (c : Nat)
deriving DecidableEq, Repr

/-- Apply one element addition. -/
def applyOp (t : TFeatureTensor) : AddOp → TFeatureTensor
  | .bin s => t.AddBinarySplit s
  | .cat c => t.AddCatFeature c

/-- Apply a sequence of element additions, in order. -/
def applyOps (t : TFeatureTensor) (ops : List AddOp) : TFeatureTensor :=
  ops.foldl applyOp t

theorem applyOp_comm (t : TFeatureTensor) (x y : AddOp) :
    applyOp (applyOp t x) y = applyOp (applyOp t y) x := by
  cases x with
  | bin s => cases y with
    | bin s' =>
      simp only [applyOp, TFeatureTensor.addBinarySplit_def]
      refine congrArg (fun l => TFeatureTensor.mk l t.CatFeatures) ?_
      rw [sortUnique_sortUnique_append, sortUnique_sortUnique_append]
      exact sortUnique_congr fun z => by
        simp only [List.mem_append]
        tauto
    | cat c => rfl
  | cat c => cases y with
    | bin s' => rfl
    | cat c' =>
      simp only [applyOp, TFeatureTensor.addCatFeature_def]
      refine congrArg (fun l => TFeatureTensor.mk t.Splits l) ?_
      rw [sortUnique_sortUnique_append, sortUnique_sortUnique_append]
      exact sortUnique_congr fun z => by
        simp only [List.mem_append]
        tauto

theorem applyOps_perm_congr {ops₁ ops₂ : List AddOp} (h : ops₁.Perm ops₂) :
    ∀ t : TFeatureTensor, applyOps t ops₁ = applyOps t ops₂ := by
  induction h with
  | nil => exact fun _ => rfl
  | cons x _ ih => exact fun t => ih (applyOp t x)
  | swap x y l => exact fun t => congrArg (fun u => applyOps u l) (applyOp_comm t y x)
  | trans _ _ ih₁ ih₂ => exact fun t => (ih₁ t).trans (ih₂ t)

/-! ### Claims -/

/-- C1: the canonical `TFeatureTensor` produced by a sequence of element
additions depends only on the set of elements added, not on the order or
grouping of the calls: `AddBinarySplit`/`AddCatFeature` applied in any
permutation yield equal tensors, and `AddTensor` is commutative and
associative at the canonical-result level, with the empty tensor as
identity on canonical tensors. -/
theorem claim_C1 (t u v : TFeatureTensor) (ops₁ ops₂ : List AddOp)
    (hperm : ops₁.Perm ops₂) (ht : Canonical t) :
    applyOps t ops₁ = applyOps t ops₂ ∧
      t.AddTensor u = u.AddTensor t ∧
      (t.AddTensor u).AddTensor v = t.AddTensor (u.AddTensor v) ∧
      t.AddTensor TFeatureTensor.empty = t := by
  obtain ⟨hts, htc⟩ := (canonical_iff_chain'_lt t).mp ht
  refine ⟨applyOps_perm_congr hperm t, ?_, ?_, ?_⟩
  · simp only [TFeatureTensor.addTensor_def]
    exact congrArg₂ TFeatureTensor.mk
      (sortUnique_perm_congr (List.perm_append_comm))
      (sortUnique_perm_congr (List.perm_append_comm))
  · simp only [TFeatureTensor.addTensor_def]
    refine congrArg₂ TFeatureTensor.mk ?_ ?_ <;>
      rw [sortUnique_sortUnique_append, sortUnique_append_sortUnique, List.append_assoc]
  · simp only [TFeatureTensor.addTensor_def, TFeatureTensor.empty, List.append_nil]
    rw [sortUnique_eq_self hts, sortUnique_eq_self htc]

theorem claim_C1_witness :
    ([AddOp.bin ⟨1, 2, .TakeGreater⟩, AddOp.cat 7].Perm
        [AddOp.cat 7, AddOp.bin ⟨1, 2, .TakeGreater⟩]) ∧
      Canonical (TFeatureTensor.mk [⟨0, 1, .TakeBin⟩] [4]) ∧
      applyOps (TFeatureTensor.mk [⟨0, 1, .TakeBin⟩] [4])
          [AddOp.bin ⟨1, 2, .TakeGreater⟩, AddOp.cat 7] =
        applyOps (TFeatureTensor.mk [⟨0, 1, .TakeBin⟩] [4])
          [AddOp.cat 7, AddOp.bin ⟨1, 2, .TakeGreater⟩] ∧
      (TFeatureTensor.mk [⟨0, 1, .TakeBin⟩] [4]).AddTensor TFeatureTensor.empty =
        TFeatureTensor.mk [⟨0, 1, .TakeBin⟩] [4] :=
  ⟨List.Perm.swap (AddOp.cat 7) (AddOp.bin ⟨1, 2, .TakeGreater⟩) [], by decide,
    (claim_C1 (TFeatureTensor.mk [⟨0, 1, .TakeBin⟩] [4]) TFeatureTensor.empty
        TFeatureTensor.empty _ _
        (List.Perm.swap (AddOp.cat 7) (AddOp.bin ⟨1, 2, .TakeGreater⟩) [])
        (by decide)).1,
    (claim_C1 (TFeatureTensor.mk [⟨0, 1, .TakeBin⟩] [4]) TFeatureTensor.empty
        TFeatureTensor.empty [] [] (List.Perm.refl []) (by decide)).2.2.2⟩

/-- C2: canonical-form invariant — after every mutating operation on a
canonical tensor (and after `AddTensor` on any tensor) the `Splits`
sequence is strictly ascending in the `TBinarySplit` order and the
`CatFeatures` sequence is strictly ascending (so both are duplicate-free),
and every tensor reachable from the default-constructed empty tensor
through these operations is canonical. -/
theorem claim_C2 :
    (∀ (t : TFeatureTensor) (s : TBinarySplit),
        Canonical t → Canonical (t.AddBinarySplit s)) ∧
      (∀ (t : TFeatureTensor) (l : List TBinarySplit),
        Canonical t → Canonical (t.AddBinarySplitList l)) ∧
      (∀ (t : TFeatureTensor) (c : Nat),
        Canonical t → Canonical (t.AddCatFeature c)) ∧
      (∀ (t : TFeatureTensor) (l : List Nat),
        Canonical t → Canonical (t.AddCatFeatureList l)) ∧
      (∀ t u : TFeatureTensor, Canonical (t.AddTensor u)) ∧
      (∀ t : TFeatureTensor, Reachable t → Canonical t) := by
  have hbin : ∀ (t : TFeatureTensor) (l : List TBinarySplit),
      Canonical t → Canonical (t.AddBinarySplitList l) := by
    intro t l ht
    rw [TFeatureTensor.addBinarySplitList_def, canonical_iff_chain'_lt]
    exact ⟨chain'_lt_sortUnique _, ((canonical_iff_chain'_lt t).mp ht).2⟩
  have hcat : ∀ (t : TFeatureTensor) (l : List Nat),
      Canonical t → Canonical (t.AddCatFeatureList l) := by
    intro t l ht
    rw [TFeatureTensor.addCatFeatureList_def, canonical_iff_chain'_lt]
    exact ⟨((canonical_iff_chain'_lt t).mp ht).1, chain'_lt_sortUnique _⟩
  have htens : ∀ t u : TFeatureTensor, Canonical (t.AddTensor u) := by
    intro t u
    rw [TFeatureTensor.addTensor_def]
    exact canonical_of_sortUnique _ _
  refine ⟨fun t s ht => hbin t [s] ht, hbin, fun t c ht => hcat t [c] ht, hcat, htens, ?_⟩
  intro t hr
  induction hr with
  | empty => exact ⟨List.chain'_nil, List.chain'_nil⟩
  | addBin s _ ih => exact hbin _ [s] ih
  | addBinList l _ ih => exact hbin _ l ih
  | addCat c _ ih => exact hcat _ [c] ih
  | addCatList l _ ih => exact hcat _ l ih
  | addTensor u _ _ => exact htens _ u

theorem claim_C2_witness :
    Canonical (TFeatureTensor.mk [⟨0, 0, .TakeBin⟩] [1, 5]) ∧
      Canonical ((TFeatureTensor.mk [⟨0, 0, .TakeBin⟩] [1, 5]).AddBinarySplit
        ⟨0, 1, .TakeGreater⟩) ∧
      Canonical ((TFeatureTensor.empty.AddCatFeature 7).AddBinarySplit
        ⟨1, 2, .TakeGreater⟩) :=
  ⟨by decide,
    claim_C2.1 (TFeatureTensor.mk [⟨0, 0, .TakeBin⟩] [1, 5]) ⟨0, 1, .TakeGreater⟩
      (by decide),
    claim_C2.2.2.2.2.2 _ ((Reachable.empty.addCat 7).addBin ⟨1, 2, .TakeGreater⟩)⟩

/-- C3: idempotence of addition — adding the same split twice yields the
tensor obtained by a single add (same tensor, same `Size`, same `GetHash`);
and the concrete scenario: adding `(1, 2, TakeGreater)` twice to the empty
tensor and then categorical feature 7 yields `Splits = [(1,2,TakeGreater)]`,
`CatFeatures = [7]`, `Size = 2`, `IsSimple = false`, `GetComplexity = 2`. -/
theorem claim_C3 (t : TFeatureTensor) (s : TBinarySplit) :
    ((t.AddBinarySplit s).AddBinarySplit s = t.AddBinarySplit s ∧
        ((t.AddBinarySplit s).AddBinarySplit s).Size = (t.AddBinarySplit s).Size ∧
        ((t.AddBinarySplit s).AddBinarySplit s).GetHash = (t.AddBinarySplit s).GetHash) ∧
      ((((TFeatureTensor.empty.AddBinarySplit ⟨1, 2, .TakeGreater⟩).AddBinarySplit
            ⟨1, 2, .TakeGreater⟩).AddCatFeature 7).Splits = [⟨1, 2, .TakeGreater⟩] ∧
        (((TFeatureTensor.empty.AddBinarySplit ⟨1, 2, .TakeGreater⟩).AddBinarySplit
            ⟨1, 2, .TakeGreater⟩).AddCatFeature 7).CatFeatures = [7] ∧
        (((TFeatureTensor.empty.AddBinarySplit ⟨1, 2, .TakeGreater⟩).AddBinarySplit
            ⟨1, 2, .TakeGreater⟩).AddCatFeature 7).Size = 2 ∧
        (((TFeatureTensor.empty.AddBinarySplit ⟨1, 2, .TakeGreater⟩).AddBinarySplit
            ⟨1, 2, .TakeGreater⟩).AddCatFeature 7).IsSimple = false ∧
        (((TFeatureTensor.empty.AddBinarySplit ⟨1, 2, .TakeGreater⟩).AddBinarySplit
            ⟨1, 2, .TakeGreater⟩).AddCatFeature 7).GetComplexity = 2) := by
  have hidem : (t.AddBinarySplit s).AddBinarySplit s = t.AddBinarySplit s := by
    simp only [TFeatureTensor.addBinarySplit_def]
    refine congrArg₂ TFeatureTensor.mk ?_ rfl
    rw [sortUnique_sortUnique_append]
    refine sortUnique_congr fun z => ?_
    simp only [List.mem_append]
    tauto
  exact ⟨⟨hidem, congrArg TFeatureTensor.Size hidem, congrArg TFeatureTensor.GetHash hidem⟩,
    by decide, by decide, by decide, by decide, by decide⟩

/-- C7: the complexity formula — `GetComplexity` equals the number of
categorical features plus `min(number of splits, 1)`; concretely 0 splits
and 3 cat features give 3, 5 splits and 0 cat features give 1, and 2 splits
and 2 cat features give 3. -/
theorem claim_C7 (t : TFeatureTensor) :
    t.GetComplexity = t.GetCatFeatures.length + min t.GetSplits.length 1 ∧
      (TFeatureTensor.empty.AddCatFeatureList [1, 2, 3]).GetComplexity = 3 ∧
      (TFeatureTensor.empty.AddBinarySplitList
        [⟨1, 0, .TakeBin⟩, ⟨2, 0, .TakeBin⟩, ⟨3, 0, .TakeBin⟩, ⟨4, 0, .TakeBin⟩,
          ⟨5, 0, .TakeBin⟩]).GetComplexity = 1 ∧
      ((TFeatureTensor.empty.AddBinarySplitList
          [⟨1, 0, .TakeBin⟩, ⟨2, 0, .TakeBin⟩]).AddCatFeatureList [1, 2]).GetComplexity = 3 :=
  ⟨rfl, by decide, by decide, by decide⟩

/-- C4: hash/equality consistency — for each of `TBinarySplit`,
`TFeatureTensor` and `TCtr`, values equal under `operator==` have equal
`GetHash`. -/
theorem claim_C4 :
    (∀ a b : TBinarySplit, a.beq b = true → a.GetHash = b.GetHash) ∧
      (∀ a b : TFeatureTensor, a.beq b = true → a.GetHash = b.GetHash) ∧
      (∀ a b : TCtr, a.beq b = true → a.GetHash = b.GetHash) := by
  refine ⟨fun a b h => ?_, fun a b h => ?_, fun a b h => ?_⟩
  · rw [(split_beq_iff a b).mp h]
  · rw [(tensor_beq_iff a b).mp h]
  · rw [(ctr_beq_iff a b).mp h]

theorem claim_C4_witness :
    TBinarySplit.beq ⟨1, 2, .TakeGreater⟩ ⟨1, 2, .TakeGreater⟩ = true ∧
      TBinarySplit.GetHash ⟨1, 2, .TakeGreater⟩ = TBinarySplit.GetHash ⟨1, 2, .TakeGreater⟩ ∧
      TFeatureTensor.GetHash ⟨[⟨1, 2, .TakeGreater⟩], [7]⟩ =
        TFeatureTensor.GetHash ⟨[⟨1, 2, .TakeGreater⟩], [7]⟩ ∧
      TCtr.GetHash ⟨⟨[], [7]⟩, ⟨3⟩⟩ = TCtr.GetHash ⟨⟨[], [7]⟩, ⟨3⟩⟩ :=
  ⟨by decide,
    claim_C4.1 ⟨1, 2, .TakeGreater⟩ ⟨1, 2, .TakeGreater⟩ (by decide),
    claim_C4.2.1 ⟨[⟨1, 2, .TakeGreater⟩], [7]⟩ ⟨[⟨1, 2, .TakeGreater⟩], [7]⟩ (by decide),
    claim_C4.2.2 ⟨⟨[], [7]⟩, ⟨3⟩⟩ ⟨⟨[], [7]⟩, ⟨3⟩⟩ (by decide)⟩

/-- Helper: a Boolean strict order agreeing with a linear order is
asymmetric, transitive, and its incomparability coincides with the
corresponding Boolean equality. -/
theorem ltb_props {α : Type _} [LinearOrder α] (ltb beq : α → α → Bool)
    (hlt : ∀ x y, ltb x y = true ↔ x < y) (heq : ∀ x y, beq x y = true ↔ x = y) :
    (∀ a b, beq a b = true ↔ (ltb a b = false ∧ ltb b a = false)) ∧
      (∀ a b, ltb a b = true → ltb b a = false) ∧
      (∀ a b c, ltb a b = true → ltb b c = true → ltb a c = true) := by
  refine ⟨fun a b => ?_, fun a b h => ?_, fun a b c h₁ h₂ => ?_⟩
  · rw [heq, Bool.eq_false_iff, Bool.eq_false_iff, Ne, Ne, hlt, hlt]
    constructor
    · rintro rfl
      exact ⟨lt_irrefl a, lt_irrefl a⟩
    · rintro ⟨h₁, h₂⟩
      exact le_antisymm (not_lt.mp h₂) (not_lt.mp h₁)
  · rw [Bool.eq_false_iff, Ne, hlt]
    exact fun h' => lt_asymm ((hlt a b).mp h) h'
  · rw [hlt] at h₁ h₂ ⊢
    exact lt_trans h₁ h₂

/-- C5: total-order consistency — `operator<` on `TBinarySplit` is the
lexicographic order over `(FeatureId, BinIdx, SplitType)` and on
`TFeatureTensor` the lexicographic order over `(Splits, CatFeatures)`;
each is asymmetric and transitive, and `a == b` holds iff neither
`a < b` nor `b < a`. -/
theorem claim_C5 :
    (∀ a b : TBinarySplit, a.ltb b = true ↔
        (a.FeatureId < b.FeatureId ∨ (a.FeatureId = b.FeatureId ∧
          (a.BinIdx < b.BinIdx ∨ (a.BinIdx = b.BinIdx ∧
            a.SplitType.toNat < b.SplitType.toNat))))) ∧
      (∀ a b : TFeatureTensor, a.ltb b = true ↔
        (List.Lex (· < ·) a.Splits b.Splits ∨
          (a.Splits = b.Splits ∧ List.Lex (· < ·) a.CatFeatures b.CatFeatures))) ∧
      (∀ a b : TBinarySplit, a.beq b = true ↔ (a.ltb b = false ∧ b.ltb a = false)) ∧
      (∀ a b : TFeatureTensor, a.beq b = true ↔ (a.ltb b = false ∧ b.ltb a = false)) ∧
      (∀ a b : TBinarySplit, a.ltb b = true → b.ltb a = false) ∧
      (∀ a b : TFeatureTensor, a.ltb b = true → b.ltb a = false) ∧
      (∀ a b c : TBinarySplit, a.ltb b = true → b.ltb c = true → a.ltb c = true) ∧
      (∀ a b c : TFeatureTensor, a.ltb b = true → b.ltb c = true → a.ltb c = true) := by
  obtain ⟨hs₁, hs₂, hs₃⟩ :=
    ltb_props TBinarySplit.ltb TBinarySplit.beq split_ltb_iff_lt split_beq_iff
  obtain ⟨ht₁, ht₂, ht₃⟩ :=
    ltb_props TFeatureTensor.ltb TFeatureTensor.beq tensor_ltb_iff_lt
      tensor_beq_iff
  exact ⟨fun a b => (split_ltb_iff_lt a b).trans (split_lt_iff a b),
    fun a b => (tensor_ltb_iff_lt a b).trans (tensor_lt_iff a b),
    hs₁, ht₁, hs₂, ht₂, hs₃, ht₃⟩

theorem claim_C5_witness :
    TBinarySplit.ltb ⟨0, 0, .TakeBin⟩ ⟨0, 0, .TakeGreater⟩ = true ∧
      TBinarySplit.ltb ⟨0, 0, .TakeGreater⟩ ⟨1, 0, .TakeBin⟩ = true ∧
      TBinarySplit.ltb ⟨0, 0, .TakeBin⟩ ⟨1, 0, .TakeBin⟩ = true ∧
      TFeatureTensor.ltb ⟨[], []⟩ ⟨[], [2]⟩ = true :=
  ⟨by decide, by decide,
    claim_C5.2.2.2.2.2.2.1 ⟨0, 0, .TakeBin⟩ ⟨0, 0, .TakeGreater⟩ ⟨1, 0, .TakeBin⟩
      (by decide) (by decide),
    claim_C5.2.2.2.2.2.2.2 ⟨[], []⟩ ⟨[], [1]⟩ ⟨[], [2]⟩ (by decide) (by decide)⟩

theorem vecIsSubset_iff {α : Type _} [DecidableEq α] (a b : List α) :
    vecIsSubset a b = true ↔ ∀ x ∈ a, x ∈ b := by
  simp [vecIsSubset, List.all_eq_true, List.contains, List.elem_iff]

/-- C6: subset semantics — `IsSubset(other)` holds iff every split and every
categorical feature of the receiver appears in `other`; `IsSubset` is
reflexive and transitive, and every tensor is a subset of the result of
merging another tensor into it. -/
theorem claim_C6 :
    (∀ t u : TFeatureTensor, t.IsSubset u = true ↔
        ((∀ x ∈ t.Splits, x ∈ u.Splits) ∧ ∀ y ∈ t.CatFeatures, y ∈ u.CatFeatures)) ∧
      (∀ t : TFeatureTensor, t.IsSubset t = true) ∧
      (∀ t u v : TFeatureTensor,
        t.IsSubset u = true → u.IsSubset v = true → t.IsSubset v = true) ∧
      (∀ t u : TFeatureTensor, t.IsSubset (t.AddTensor u) = true) := by
  have hchar : ∀ t u : TFeatureTensor, t.IsSubset u = true ↔
      ((∀ x ∈ t.Splits, x ∈ u.Splits) ∧ ∀ y ∈ t.CatFeatures, y ∈ u.CatFeatures) := by
    intro t u
    rw [TFeatureTensor.IsSubset, Bool.and_eq_true, vecIsSubset_iff, vecIsSubset_iff]
  refine ⟨hchar, fun t => ?_, fun t u v h₁ h₂ => ?_, fun t u => ?_⟩
  · rw [hchar]
    exact ⟨fun x hx => hx, fun y hy => hy⟩
  · rw [hchar] at h₁ h₂ ⊢
    exact ⟨fun x hx => h₂.1 x (h₁.1 x hx), fun y hy => h₂.2 y (h₁.2 y hy)⟩
  · rw [hchar, TFeatureTensor.addTensor_def]
    constructor
    · intro x hx
      exact (mem_sortUnique _ x).mpr (List.mem_append_left _ hx)
    · intro y hy
      exact (mem_sortUnique _ y).mpr (List.mem_append_left _ hy)

theorem claim_C6_witness :
    TFeatureTensor.IsSubset ⟨[], [1]⟩ ⟨[], [1, 2]⟩ = true ∧
      TFeatureTensor.IsSubset ⟨[], [1, 2]⟩ ⟨[⟨0, 0, .TakeBin⟩], [1, 2, 3]⟩ = true ∧
      TFeatureTensor.IsSubset ⟨[], [1]⟩ ⟨[⟨0, 0, .TakeBin⟩], [1, 2, 3]⟩ = true ∧
      TFeatureTensor.IsSubset ⟨[], [1]⟩
        (TFeatureTensor.AddTensor ⟨[], [1]⟩ ⟨[⟨0, 0, .TakeBin⟩], [3]⟩) = true :=
  ⟨by decide, by decide,
    claim_C6.2.2.1 ⟨[], [1]⟩ ⟨[], [1, 2]⟩ ⟨[⟨0, 0, .TakeBin⟩], [1, 2, 3]⟩
      (by decide) (by decide),
    claim_C6.2.2.2 ⟨[], [1]⟩ ⟨[⟨0, 0, .TakeBin⟩], [3]⟩⟩

/-- C8: `TCtr` identity is lexicographic over `(FeatureTensor,
Configuration)` for both `operator==` and `operator<`, `IsSimple` delegates
to the tensor; two ctrs over equal tensors with different configurations
compare unequal, and hash differently whenever the configurations hash
differently. -/
theorem claim_C8 :
    (∀ a b : TCtr, a.beq b = true ↔
        (a.FeatureTensor.beq b.FeatureTensor = true ∧ a.Configuration = b.Configuration)) ∧
      (∀ a b : TCtr, a.ltb b = true ↔
        (a.FeatureTensor < b.FeatureTensor ∨
          (a.FeatureTensor = b.FeatureTensor ∧ a.Configuration < b.Configuration))) ∧
      (∀ c : TCtr, c.IsSimple = c.FeatureTensor.IsSimple) ∧
      (∀ (t : TFeatureTensor) (c₁ c₂ : TCtrConfig),
        c₁ ≠ c₂ → TCtr.beq ⟨t, c₁⟩ ⟨t, c₂⟩ = false) ∧
      (∀ (t : TFeatureTensor) (c₁ c₂ : TCtrConfig), c₁.GetHash ≠ c₂.GetHash →
        TCtr.GetHash ⟨t, c₁⟩ ≠ TCtr.GetHash ⟨t, c₂⟩) := by
  have hbeq : ∀ a b : TCtr, a.beq b = true ↔
      (a.FeatureTensor.beq b.FeatureTensor = true ∧ a.Configuration = b.Configuration) := by
    intro a b
    rw [TCtr.beq, Bool.and_eq_true, beq_iff_eq]
  refine ⟨hbeq,
    fun a b => (ctr_ltb_iff_lt a b).trans (ctr_lt_iff a b),
    fun c => rfl, fun t c₁ c₂ hne => ?_, fun t c₁ c₂ hne => ?_⟩
  · rw [Bool.eq_false_iff, Ne, hbeq]
    rintro ⟨-, hc⟩
    exact hne hc
  · intro h
    exact hne (Nat.pair_eq_pair.mp h).2

theorem claim_C8_witness :
    TCtr.beq ⟨TFeatureTensor.empty, ⟨0⟩⟩ ⟨TFeatureTensor.empty, ⟨1⟩⟩ = false ∧
      TCtr.GetHash ⟨TFeatureTensor.empty, ⟨0⟩⟩ ≠ TCtr.GetHash ⟨TFeatureTensor.empty, ⟨1⟩⟩ :=
  ⟨claim_C8.2.2.2.1 TFeatureTensor.empty ⟨0⟩ ⟨1⟩ (by decide),
    claim_C8.2.2.2.2 TFeatureTensor.empty ⟨0⟩ ⟨1⟩ (by decide)⟩

/-- C9: the default constructor zero-initializes `FeatureId` and `BinIdx`
but leaves `SplitType` indeterminate, and the results of `operator==`,
`operator<` and `GetHash` on default-constructed splits genuinely depend on
the indeterminate `SplitType` value, so they are not well-defined for
default-constructed objects. -/
theorem claim_C9 :
    (∀ st : EBinSplitType, (TBinarySplit.defaultCtor st).FeatureId = 0 ∧
        (TBinarySplit.defaultCtor st).BinIdx = 0) ∧
      (∃ st₁ st₂ : EBinSplitType,
        TBinarySplit.beq (TBinarySplit.defaultCtor st₁) (TBinarySplit.defaultCtor st₂) = false ∧
        TBinarySplit.ltb (TBinarySplit.defaultCtor st₁) (TBinarySplit.defaultCtor st₂) = true ∧
        TBinarySplit.GetHash (TBinarySplit.defaultCtor st₁) ≠
          TBinarySplit.GetHash (TBinarySplit.defaultCtor st₂)) :=
  ⟨fun _ => ⟨rfl, rfl⟩,
    ⟨.TakeBin, .TakeGreater, by decide, by decide, by decide⟩⟩

/-- C10: frame property — `AddBinarySplit` (single and list forms) leaves
`CatFeatures` unchanged and `AddCatFeature` (single and list forms) leaves
`Splits` unchanged; no `Add` operation removes an element that was present,
and `Size` is non-decreasing across every mutating operation on a canonical
tensor. -/
theorem claim_C10 (t : TFeatureTensor) (s : TBinarySplit) (ls : List TBinarySplit)
    (c : Nat) (lc : List Nat) (u : TFeatureTensor) (ht : Canonical t) :
    (t.AddBinarySplit s).CatFeatures = t.CatFeatures ∧
      (t.AddBinarySplitList ls).CatFeatures = t.CatFeatures ∧
      (t.AddCatFeature c).Splits = t.Splits ∧
      (t.AddCatFeatureList lc).Splits = t.Splits ∧
      (∀ x ∈ t.Splits, x ∈ (t.AddBinarySplit s).Splits) ∧
      (∀ x ∈ t.Splits, x ∈ (t.AddBinarySplitList ls).Splits) ∧
      (∀ y ∈ t.CatFeatures, y ∈ (t.AddCatFeature c).CatFeatures) ∧
      (∀ y ∈ t.CatFeatures, y ∈ (t.AddCatFeatureList lc).CatFeatures) ∧
      (∀ x ∈ t.Splits, x ∈ (t.AddTensor u).Splits) ∧
      (∀ y ∈ t.CatFeatures, y ∈ (t.AddTensor u).CatFeatures) ∧
      t.Size ≤ (t.AddBinarySplit s).Size ∧
      t.Size ≤ (t.AddBinarySplitList ls).Size ∧
      t.Size ≤ (t.AddCatFeature c).Size ∧
      t.Size ≤ (t.AddCatFeatureList lc).Size ∧
      t.Size ≤ (t.AddTensor u).Size := by
  obtain ⟨hts, htc⟩ := (canonical_iff_chain'_lt t).mp ht
  refine ⟨rfl, rfl, rfl, rfl,
    fun x hx => (mem_sortUnique _ x).mpr (List.mem_append_left _ hx),
    fun x hx => (mem_sortUnique _ x).mpr (List.mem_append_left _ hx),
    fun y hy => (mem_sortUnique _ y).mpr (List.mem_append_left _ hy),
    fun y hy => (mem_sortUnique _ y).mpr (List.mem_append_left _ hy),
    fun x hx => (mem_sortUnique _ x).mpr (List.mem_append_left _ hx),
    fun y hy => (mem_sortUnique _ y).mpr (List.mem_append_left _ hy),
    ?_, ?_, ?_, ?_, ?_⟩
  · exact Nat.add_le_add_left (length_le_length_sortUnique_append hts [s]) _
  · exact Nat.add_le_add_left (length_le_length_sortUnique_append hts ls) _
  · exact Nat.add_le_add_right (length_le_length_sortUnique_append htc [c]) _
  · exact Nat.add_le_add_right (length_le_length_sortUnique_append htc lc) _
  · exact Nat.add_le_add (length_le_length_sortUnique_append htc u.CatFeatures)
      (length_le_length_sortUnique_append hts u.Splits)

theorem claim_C10_witness :
    Canonical (TFeatureTensor.mk [⟨0, 0, .TakeBin⟩] [4]) ∧
      ((TFeatureTensor.mk [⟨0, 0, .TakeBin⟩] [4]).AddBinarySplit
          ⟨1, 1, .TakeBin⟩).CatFeatures = [4] ∧
      (TFeatureTensor.mk [⟨0, 0, .TakeBin⟩] [4]).Size ≤
        ((TFeatureTensor.mk [⟨0, 0, .TakeBin⟩] [4]).AddTensor
          (TFeatureTensor.mk [⟨2, 0, .TakeBin⟩] [9])).Size :=
  ⟨by decide,
    (claim_C10 (TFeatureTensor.mk [⟨0, 0, .TakeBin⟩] [4]) ⟨1, 1, .TakeBin⟩ [] 0 []
        (TFeatureTensor.mk [⟨2, 0, .TakeBin⟩] [9]) (by decide)).1,
    (claim_C10 (TFeatureTensor.mk [⟨0, 0, .TakeBin⟩] [4]) ⟨1, 1, .TakeBin⟩ [] 0 []
        (TFeatureTensor.mk [⟨2, 0, .TakeBin⟩] [9]) (by decide)).2.2.2.2.2.2.2.2.2.2.2.2.2.2⟩

end NCatboostCuda
